import Mathlib

set_option maxRecDepth 100000

/-!
Verification of the Swiss livability assessment core (fuzzy inference engine).

Shallow embedding of `src/membership_functions.py`, `src/rule_base.py` and
`src/fuzzy_system.py`.  Machine floats are modelled by `ℚ` (all constants in
the source are exact decimals); Python dicts are modelled by association
lists iterated in insertion order (Python dict keys are unique, so
first-match lookup coincides with dict lookup).

The numpy / scikit-fuzzy primitives the source calls (`np.arange`,
`fuzz.trapmf`, `fuzz.trimf`, `fuzz.interp_membership`,
`fuzz.defuzz(_, _, 'centroid')`) are embedded from the semantics of those
library functions: `trimf(x,[a,b,c])` coincides pointwise with
`trapmf(x,[a,b,b,c])`, `interp_membership` linearly interpolates between
adjacent samples and (with its default `zero_outside_x=True`) returns zero
membership outside the sampled universe, and centroid defuzzification sums
per-segment trapezoid moments and areas, dividing by
`max(sum_area, machine_eps)` with `machine_eps = 2⁻⁵²`.
-/

namespace Livability

/-- Association-list lookup in Python-dict style (keys of a dict are unique,
so first-match lookup agrees with `d[k]`). -/
def dictGet {β : Type} (k : String) : List (String × β) → Option β
  | [] => none
  | (k', v) :: rest => if k = k' then some v else dictGet k rest

/-- Embeds `np.arange(lo, hi, step)` with `n = ⌈(hi - lo)/step⌉` points:
`lo, lo+step, …, lo+(n-1)·step`. -/
def arangeList (lo step : ℚ) (n : ℕ) : List ℚ :=
  (List.range n).map (fun i : ℕ => lo + step * (i : ℚ))

/-- Embeds `self.universes` from `FuzzyMembershipFunctions._define_universes`:
the point counts are the exact `np.arange` lengths for the quoted
`(start, stop, step)` triples in the source. -/
def universes : List (String × List ℚ) :=
  [("noise_lden", arangeList 30 (1/2) 110),     -- np.arange(30, 85, 0.5)
   ("noise_lnight", arangeList 25 (1/2) 100),   -- np.arange(25, 75, 0.5)
   ("daylight", arangeList 0 5 200),            -- np.arange(0, 1000, 5)
   ("view_sky", arangeList 0 (1/20) 80),        -- np.arange(0, 4, 0.05)
   ("view_greenery", arangeList 0 (1/50) 100),  -- np.arange(0, 2, 0.02)
   ("location_poi", arangeList 0 1 100),        -- np.arange(0, 100, 1)
   ("livability", arangeList 0 1 101)]          -- np.arange(0, 101, 1)

/-- Embeds `FuzzyMembershipFunctions.get_universe`: `self.universes.get(variable, None)`. -/
def get_universe (var : String) : Option (List ℚ) :=
  dictGet var universes

/-- Pointwise value of `fuzz.trapmf(x, [a,b,c,d])` at a single point `u`
(`fuzz.trimf(x, [a,b,c])` is the degenerate case `trapmfAt a b b c`). -/
def trapmfAt (a b c d u : ℚ) : ℚ :=
  if u < a then 0
  else if u < b then (u - a) / (b - a)
  else if u ≤ c then 1
  else if u < d then (d - u) / (d - c)
  else 0

/-- One named fuzzy set: term name plus trapezoid breakpoints
(a triangle `[a,b,c]` is stored as `a, b, b, c`). -/
structure MFDef where
  term : String
  a : ℚ
  b : ℚ
  c : ℚ
  d : ℚ
deriving DecidableEq

/-- The breakpoint table of `FuzzyMembershipFunctions._define_membership_functions`
(triangles written as degenerate trapezoids). -/
def membership_breakpoints : List (String × List MFDef) :=
  [("noise_lden",
     [⟨"quiet", 30, 30, 48, 55⟩,
      ⟨"moderate", 50, 58, 58, 68⟩,
      ⟨"noisy", 63, 70, 85, 85⟩]),
   ("noise_lnight",
     [⟨"quiet", 25, 25, 40, 47⟩,
      ⟨"moderate", 42, 50, 50, 58⟩,
      ⟨"noisy", 53, 60, 75, 75⟩]),
   ("daylight",
     [⟨"low", 0, 0, 50, 120⟩,
      ⟨"medium", 80, 200, 200, 350⟩,
      ⟨"high", 280, 400, 1000, 1000⟩]),
   ("view_sky",
     [⟨"poor", 0, 0, 1/2, 6/5⟩,
      ⟨"moderate", 4/5, 3/2, 3/2, 23/10⟩,
      ⟨"good", 2, 14/5, 4, 4⟩]),
   ("view_greenery",
     [⟨"poor", 0, 0, 1/10, 2/5⟩,
      ⟨"moderate", 1/5, 3/5, 3/5, 1⟩,
      ⟨"good", 7/10, 6/5, 2, 2⟩]),
   ("location_poi",
     [⟨"low", 0, 0, 5, 15⟩,
      ⟨"medium", 10, 25, 25, 40⟩,
      ⟨"high", 35, 50, 100, 100⟩]),
   ("livability",
     [⟨"poor", 0, 0, 15, 35⟩,
      ⟨"fair", 25, 40, 40, 55⟩,
      ⟨"good", 45, 60, 60, 75⟩,
      ⟨"excellent", 65, 80, 100, 100⟩])]

/-- Embeds `self.membership_functions[variable]`: each term's membership function
sampled over the variable's universe, as built at engine construction. -/
def mfSamples (var : String) : Option (List (String × List ℚ)) :=
  (dictGet var membership_breakpoints).map (fun defs =>
    defs.map (fun m =>
      (m.term, ((get_universe var).getD []).map (trapmfAt m.a m.b m.c m.d))))

/-- Embeds `FuzzyMembershipFunctions.get_membership_function`: returns the sampled
function, or `None` when the variable or the term is undefined. -/
def get_membership_function (var term : String) : Option (List ℚ) :=
  match mfSamples var with
  | some terms => dictGet term terms
  | none => none

/-- Interpolation walk of `np.interp` once `v` is at or past the first sample:
invariant `x1 ≤ v`; between two adjacent samples the value is the linear
interpolation; past the last sample the result is the `right=0` fill value
(`fuzz.interp_membership` passes `left=0, right=0` for its default
`zero_outside_x=True`). -/
def interpFrom (v : ℚ) : ℚ → ℚ → List (ℚ × ℚ) → ℚ
  | x1, y1, [] => if v = x1 then y1 else 0
  | x1, y1, (x2, y2) :: rest =>
      if v ≤ x2 then y1 + (y2 - y1) * (v - x1) / (x2 - x1)
      else interpFrom v x2 y2 rest

/-- Embeds `fuzz.interp_membership(xs, ys, v)` with the default
`zero_outside_x=True`: zero below the first sample and above the last,
linear interpolation between adjacent samples in between. -/
def interp_membership (xs ys : List ℚ) (v : ℚ) : ℚ :=
  match xs, ys with
  | x1 :: xr, y1 :: yr => if v < x1 then 0 else interpFrom v x1 y1 (xr.zip yr)
  | _, _ => 0

/-- Embeds `FuzzyMembershipFunctions.fuzzify_value`: empty mapping for an undefined
variable, otherwise one interpolated degree per defined term. -/
def fuzzify_value (var : String) (value : ℚ) : List (String × ℚ) :=
  match mfSamples var with
  | none => []
  | some terms =>
      terms.map (fun tm =>
        (tm.1, interp_membership ((get_universe var).getD []) tm.2 value))

/-- A rule of `FuzzyRuleBase._define_rules` (the consequent dict
`{'livability': term}` is stored as its single term). -/
structure Rule where
  id : ℕ
  description : String
  antecedents : List (String × String)
  consequent : String
  weight : ℚ
deriving DecidableEq

/-- The fixed 15-rule set of `FuzzyRuleBase._define_rules`, in definition order. -/
def rules : List Rule :=
  [⟨1, "Quiet environment with high daylight and good views",
     [("noise_lden", "quiet"), ("daylight", "high"), ("view_sky", "good")],
     "excellent", 1⟩,
   ⟨2, "Quiet with good greenery view and high accessibility",
     [("noise_lden", "quiet"), ("view_greenery", "good"), ("location_poi", "high")],
     "excellent", 1⟩,
   ⟨3, "Moderate noise with high daylight and good views",
     [("noise_lden", "moderate"), ("daylight", "high"), ("view_sky", "good")],
     "good", 1⟩,
   ⟨4, "Quiet environment with medium daylight",
     [("noise_lden", "quiet"), ("daylight", "medium"), ("view_sky", "moderate")],
     "good", 1⟩,
   ⟨5, "Moderate noise but good views and accessibility",
     [("noise_lden", "moderate"), ("view_sky", "good"), ("location_poi", "high")],
     "good", 9/10⟩,
   ⟨6, "Moderate noise with medium daylight",
     [("noise_lden", "moderate"), ("daylight", "medium"), ("view_sky", "moderate")],
     "fair", 1⟩,
   ⟨7, "Quiet but low daylight and poor views",
     [("noise_lden", "quiet"), ("daylight", "low"), ("view_sky", "poor")],
     "fair", 1⟩,
   ⟨8, "Moderate noise with good accessibility",
     [("noise_lden", "moderate"), ("location_poi", "high"), ("view_sky", "moderate")],
     "fair", 4/5⟩,
   ⟨9, "Noisy environment regardless of other factors",
     [("noise_lden", "noisy")],
     "poor", 1⟩,
   ⟨10, "Low daylight with poor views",
     [("daylight", "low"), ("view_sky", "poor"), ("view_greenery", "poor")],
     "poor", 1⟩,
   ⟨11, "Moderate noise with low daylight and poor views",
     [("noise_lden", "moderate"), ("daylight", "low"), ("view_sky", "poor")],
     "poor", 9/10⟩,
   ⟨12, "Poor accessibility with low environmental quality",
     [("location_poi", "low"), ("daylight", "low"), ("noise_lden", "moderate")],
     "poor", 7/10⟩,
   ⟨13, "Excellent daylight compensates for moderate noise",
     [("noise_lden", "moderate"), ("daylight", "high"), ("location_poi", "high")],
     "good", 17/20⟩,
   ⟨14, "Good greenery view with quiet night environment",
     [("noise_lnight", "quiet"), ("view_greenery", "good"), ("daylight", "medium")],
     "good", 9/10⟩,
   ⟨15, "Noisy night environment degrades livability",
     [("noise_lnight", "noisy")],
     "poor", 19/20⟩]

/-- The fuzzification result: per recognized input variable, the mapping
term ↦ degree. -/
abbrev Fuzzified := List (String × List (String × ℚ))

/-- Fuzzification loop of `compute_single_dwelling`: each feature whose
variable is defined in the membership model contributes its fuzzified map,
in iteration order (unknown variables are silently skipped). -/
def fuzzify_features (features : List (String × ℚ)) : Fuzzified :=
  features.filterMap (fun p =>
    if (dictGet p.1 membership_breakpoints).isSome then
      some (p.1, fuzzify_value p.1 p.2)
    else none)

/-- Degree lookup for a single antecedent `(variable, term)` pair:
`fuzzified[var][term]` when both are present. -/
def antecedent_degree (fuzzified : Fuzzified) (p : String × String) : Option ℚ :=
  match dictGet p.1 fuzzified with
  | some m => dictGet p.2 m
  | none => none

/-- The `activation_degrees` list of `compute_single_dwelling`: the degrees
of those antecedent pairs that have a matching fuzzified entry. -/
def activation_degrees (fuzzified : Fuzzified) (rule : Rule) : List ℚ :=
  rule.antecedents.filterMap (antecedent_degree fuzzified)

/-- Python `min` over a nonempty list. -/
def minList : List ℚ → ℚ
  | [] => 0
  | x :: xs => xs.foldl min x

/-- The effective firing strength of a rule for a given fuzzification
result: `min(activation_degrees) * weight` when at least one antecedent
matched, and `0` when no antecedent matched (the code's skipped-rule case). -/
def eff_activation (fuzzified : Fuzzified) (rule : Rule) : ℚ :=
  let ds := activation_degrees fuzzified rule
  if ds.isEmpty then 0 else minList ds * rule.weight

/-- The `output_aggregation` dict, with its four fixed keys. -/
structure OutputAgg where
  poor : ℚ
  fair : ℚ
  good : ℚ
  excellent : ℚ
deriving DecidableEq

/-- Reads `output_aggregation[t]`. -/
def OutputAgg.get (a : OutputAgg) (t : String) : ℚ :=
  if t = "poor" then a.poor
  else if t = "fair" then a.fair
  else if t = "good" then a.good
  else if t = "excellent" then a.excellent
  else 0

/-- Writes `output_aggregation[t] = v`. -/
def OutputAgg.set (a : OutputAgg) (t : String) (v : ℚ) : OutputAgg :=
  if t = "poor" then { a with poor := v }
  else if t = "fair" then { a with fair := v }
  else if t = "good" then { a with good := v }
  else if t = "excellent" then { a with excellent := v }
  else a

/-- One entry of the `activated_rules` list. -/
structure ActivatedRule where
  rule_id : ℕ
  description : String
  activation : ℚ
deriving DecidableEq

/-- Mutable state of the rule-evaluation loop in `compute_single_dwelling`. -/
structure EvalState where
  output_aggregation : OutputAgg
  activated_rules : List ActivatedRule
deriving DecidableEq

/-- One iteration of the rule loop in `compute_single_dwelling`: if at least
one antecedent matched, fire at `min(degrees) * weight`, aggregate into the
consequent term by `max`, and record the rule when the activation exceeds
the significance threshold `0.01`. -/
def apply_rule (fuzzified : Fuzzified) (st : EvalState) (rule : Rule) : EvalState :=
  let ds := activation_degrees fuzzified rule
  if ds.isEmpty then st
  else
    let activation := minList ds * rule.weight
    { output_aggregation :=
        st.output_aggregation.set rule.consequent
          (max (st.output_aggregation.get rule.consequent) activation),
      activated_rules :=
        if activation > 1/100 then
          st.activated_rules ++ [⟨rule.id, rule.description, activation⟩]
        else st.activated_rules }

/-- The full rule loop, starting from all-zero aggregation and no activated
rules. -/
def eval_rules (fuzzified : Fuzzified) : EvalState :=
  rules.foldl (apply_rule fuzzified) ⟨⟨0, 0, 0, 0⟩, []⟩

/-- Embeds `np.finfo(float).eps`: the float64 machine epsilon `2⁻⁵²` used by
scikit-fuzzy's centroid as a division floor. -/
def machine_eps : ℚ := 1 / 2 ^ 52

/-- Moment and area of one segment of the sampled envelope, exactly the
four branches of scikit-fuzzy's `centroid` helper (rectangle, left
triangle, right triangle, trapezoid). -/
def seg_moment_area (x1 x2 y1 y2 : ℚ) : ℚ × ℚ :=
  if y1 = y2 then
    ((x1 + x2) / 2, (x2 - x1) * y1)
  else if y1 = 0 then
    (2/3 * (x2 - x1) + x1, (x2 - x1) * y2 / 2)
  else if y2 = 0 then
    (1/3 * (x2 - x1) + x1, (x2 - x1) * y1 / 2)
  else
    ((2/3 * (x2 - x1) * (y2 + y1 / 2)) / (y1 + y2) + x1,
     (x2 - x1) * (y1 + y2) / 2)

/-- Accumulation loop of scikit-fuzzy's `centroid`: sum of `moment * area`
and of `area` over consecutive sample pairs, skipping zero-height and
zero-width segments. -/
def centroid_sums : (ℚ × ℚ) → List (ℚ × ℚ) → ℚ × ℚ
  | _, [] => (0, 0)
  | (x1, y1), (x2, y2) :: rest =>
      let s := centroid_sums (x2, y2) rest
      if (y1 = 0 ∧ y2 = 0) ∨ x1 = x2 then s
      else
        let ma := seg_moment_area x1 x2 y1 y2
        (s.1 + ma.1 * ma.2, s.2 + ma.2)

/-- Centroid of a sampled curve given as (point, membership) pairs:
singleton curves divide by `max(y, eps)`, otherwise the summed moments are
divided by `max(sum_area, eps)`. -/
def centroidPts : List (ℚ × ℚ) → ℚ
  | [] => 0
  | [(x0, y0)] => x0 * y0 / max y0 machine_eps
  | p :: rest => (centroid_sums p rest).1 / max (centroid_sums p rest).2 machine_eps

/-- Embeds `fuzz.defuzz(xs, ys, 'centroid')`. -/
def centroid (xs ys : List ℚ) : ℚ :=
  centroidPts (xs.zip ys)

/-- The four output terms in the dict insertion order of
`compute_single_dwelling`'s `output_aggregation`. -/
def output_terms (om : OutputAgg) : List (String × ℚ) :=
  [("poor", om.poor), ("fair", om.fair), ("good", om.good), ("excellent", om.excellent)]

/-- One step of the envelope construction in `_defuzzify_centroid`: for an
output term with positive activation, take the pointwise maximum
(`np.fmax`) of the running envelope with the term's membership function
clipped (`np.fmin`) at the activation level. -/
def clip_step (agg : List ℚ) (tm : String × ℚ) : List ℚ :=
  if tm.2 > 0 then
    match get_membership_function "livability" tm.1 with
    | some mf => List.zipWith max agg (mf.map (fun m => min tm.2 m))
    | none => agg
  else agg

/-- Envelope construction of `_defuzzify_centroid`: start from
`np.zeros_like(universe)` and fold `clip_step` over the four output terms. -/
def clip_and_aggregate (om : OutputAgg) : List ℚ :=
  let univ := (get_universe "livability").getD []
  (output_terms om).foldl clip_step (univ.map (fun _ => (0 : ℚ)))

/-- Embeds `LiveabilityFuzzySystem._defuzzify_centroid`: centroid of the envelope
when its sample sum is positive, else the explicit `50.0` default. -/
def defuzzify_centroid (om : OutputAgg) : ℚ :=
  let univ := (get_universe "livability").getD []
  let aggregated := clip_and_aggregate om
  if aggregated.sum > 0 then centroid univ aggregated else 50

/-- Embeds `LiveabilityFuzzySystem._get_linguistic_label`. -/
def get_linguistic_label (fli_score : ℚ) : String :=
  if fli_score ≥ 65 then "excellent"
  else if fli_score ≥ 45 then "good"
  else if fli_score ≥ 25 then "fair"
  else "poor"

/-- The result dict of `compute_single_dwelling`. -/
structure DwellingResult where
  fli_score : ℚ
  linguistic_label : String
  output_memberships : OutputAgg
  activated_rules : List ActivatedRule
  input_fuzzification : Fuzzified
deriving DecidableEq

/-- Embeds `LiveabilityFuzzySystem.compute_single_dwelling`. -/
def compute_single_dwelling (features : List (String × ℚ)) : DwellingResult :=
  let fuzzified := fuzzify_features features
  let st := eval_rules fuzzified
  let fli := defuzzify_centroid st.output_aggregation
  ⟨fli, get_linguistic_label fli, st.output_aggregation, st.activated_rules, fuzzified⟩

/-- The default `feature_mapping` of `compute_batch`. -/
def default_feature_mapping : List (String × String) :=
  [("noise_lden", "noise_lden"),
   ("noise_lnight", "noise_lnight"),
   ("daylight_avg", "daylight"),
   ("view_sky", "view_sky"),
   ("view_greenery", "view_greenery"),
   ("location_poi_count", "location_poi")]

/-- Feature extraction of `compute_batch` for one row under the default
mapping: columns present in the row are copied to their fuzzy variable,
and a daylight value strictly below 10 is multiplied by 1000 (klx → lux). -/
def extract_features (row : List (String × ℚ)) : List (String × ℚ) :=
  default_feature_mapping.foldl
    (fun feats m =>
      match dictGet m.1 row with
      | some value =>
          feats ++ [(m.2, if m.2 = "daylight" ∧ value < 10 then value * 1000 else value)]
      | none => feats)
    []

/-- Embeds `LiveabilityFuzzySystem.compute_batch` (default mapping): score each
row in order, keeping score, label and the number of activated rules. -/
def compute_batch (df : List (List (String × ℚ))) : List (ℚ × String × ℕ) :=
  df.map (fun row =>
    let r := compute_single_dwelling (extract_features row)
    (r.fli_score, r.linguistic_label, r.activated_rules.length))

/-- Stable descending insertion used to model Python's stable
`sorted(..., key=activation, reverse=True)`: a rule is placed after every
earlier rule with strictly greater activation and before the first rule
with smaller-or-equal activation, so original order is kept among ties. -/
def insertDesc (x : ActivatedRule) : List ActivatedRule → List ActivatedRule
  | [] => [x]
  | y :: ys => if x.activation < y.activation then y :: insertDesc x ys
               else x :: y :: ys

/-- Stable descending sort by activation (the unique stable sort for this
key, hence the same permutation Python's Timsort produces). -/
def sortDesc : List ActivatedRule → List ActivatedRule
  | [] => []
  | x :: xs => insertDesc x (sortDesc xs)

/-- The `sorted_rules` list rendered by `explain_dwelling`: activated rules
sorted by descending activation (stable), truncated to the caller's top-N. -/
def explain_sorted_rules (features : List (String × ℚ)) (top_n_rules : ℕ) :
    List ActivatedRule :=
  (sortDesc (compute_single_dwelling features).activated_rules).take top_n_rules

/-- Error taxonomy named by the specification for membership-model lookups. -/
inductive LookupError where
  | unknownVariable
  | unknownTerm
deriving DecidableEq

/-- Modelled from the spec: "`fuzzify(variable, value)` … Fails with
`UnknownVariable` if variable undefined."  The repository's
`fuzzify_value` has no such error channel; this spec-side contract is
stated only to compare it with the code's behaviour. -/
def fuzzify_value_spec (var : String) (value : ℚ) :
    Except LookupError (List (String × ℚ)) :=
  if (dictGet var membership_breakpoints).isSome then
    Except.ok (fuzzify_value var value)
  else Except.error LookupError.unknownVariable

/-- Modelled from the spec: "`membershipFunction(variable, term)` … fails
with `UnknownVariable` or `UnknownTerm`."  Stated only to compare with the
code's `get_membership_function`, which returns `None` in both cases. -/
def membership_function_spec (var term : String) :
    Except LookupError (List ℚ) :=
  match mfSamples var with
  | none => Except.error LookupError.unknownVariable
  | some terms =>
      match dictGet term terms with
      | some mf => Except.ok mf
      | none => Except.error LookupError.unknownTerm

/-! ## Helper lemmas -/

theorem activation_degrees_eq_nil {fuzzified : Fuzzified} {rule : Rule}
    (h : ∀ p ∈ rule.antecedents, antecedent_degree fuzzified p = none) :
    activation_degrees fuzzified rule = [] :=
  List.filterMap_eq_nil_iff.mpr h

theorem apply_rule_skip {fuzzified : Fuzzified} {st : EvalState} {rule : Rule}
    (h : activation_degrees fuzzified rule = []) :
    apply_rule fuzzified st rule = st := by
  simp [apply_rule, h]

theorem foldl_fixed {α β : Type} (f : α → β → α) (l : List β) (init : α)
    (h : ∀ st r, r ∈ l → f st r = st) : l.foldl f init = init := by
  induction l generalizing init with
  | nil => rfl
  | cons r rest ih =>
      rw [List.foldl_cons, h init r (by simp)]
      exact ih init (fun st r' hr' => h st r' (List.mem_cons_of_mem _ hr'))

instance {ε α : Type} [DecidableEq ε] [DecidableEq α] : DecidableEq (Except ε α) := fun x y =>
  match x, y with
  | .ok a, .ok b =>
      if h : a = b then isTrue (by rw [h]) else isFalse (by intro he; cases he; exact h rfl)
  | .error e, .error f =>
      if h : e = f then isTrue (by rw [h]) else isFalse (by intro he; cases he; exact h rfl)
  | .ok _, .error _ => isFalse (fun he => nomatch he)
  | .error _, .ok _ => isFalse (fun he => nomatch he)

theorem dictGet_map_term_eq_none {term : String} (g : MFDef → List ℚ) :
    ∀ defs : List MFDef, (∀ m ∈ defs, m.term ≠ term) →
      dictGet term (defs.map (fun m => (m.term, g m))) = none
  | [], _ => rfl
  | m :: rest, h => by
      simp only [List.map_cons, dictGet]
      rw [if_neg (fun he => h m (by simp) he.symm)]
      exact dictGet_map_term_eq_none g rest (fun m' hm' => h m' (List.mem_cons_of_mem _ hm'))

theorem filterMap_eq_map_of_isSome {α β : Type} (f : α → Option β) (d : β) :
    ∀ l : List α, (∀ a ∈ l, (f a).isSome) →
      l.filterMap f = l.map (fun a => (f a).getD d)
  | [], _ => rfl
  | a :: l, h => by
      rcases Option.isSome_iff_exists.mp (h a (by simp)) with ⟨b, hb⟩
      rw [List.filterMap_cons, List.map_cons, hb]
      simp only [Option.getD_some]
      rw [filterMap_eq_map_of_isSome f d l (fun a ha => h a (List.mem_cons_of_mem _ ha))]

/-! ## C1 -/

/-- C1 (amended): a rule contributes nothing — its evaluation step leaves
both the output aggregation and the activated-rule list untouched — when
NONE of its antecedent (variable, term) pairs has a matching entry in the
fuzzification result.  (The original claim, that this already happens when
ANY antecedent pair is missing, is refuted by
`missing_antecedent_rule_still_fires_counterexample`.) -/
theorem rule_without_matched_antecedent_contributes_nothing
    (fuzzified : Fuzzified) (st : EvalState) (rule : Rule)
    (h : ∀ p ∈ rule.antecedents, antecedent_degree fuzzified p = none) :
    apply_rule fuzzified st rule = st :=
  apply_rule_skip (activation_degrees_eq_nil h)

/-- Witness for C1 (amended): rule 9 against an empty fuzzification result. -/
theorem rule_without_matched_antecedent_contributes_nothing_witness :
    (⟨9, "Noisy environment regardless of other factors",
       [("noise_lden", "noisy")], "poor", 1⟩ : Rule) ∈ rules ∧
    (∀ p ∈ [(("noise_lden" : String), ("noisy" : String))],
       antecedent_degree [] p = none) ∧
    apply_rule [] ⟨⟨0, 0, 0, 0⟩, []⟩
      ⟨9, "Noisy environment regardless of other factors",
       [("noise_lden", "noisy")], "poor", 1⟩ = ⟨⟨0, 0, 0, 0⟩, []⟩ :=
  ⟨by with_unfolding_all decide, by with_unfolding_all decide,
   rule_without_matched_antecedent_contributes_nothing _ _ _ (by with_unfolding_all decide)⟩

/-- C1 counterexample: for the record `{daylight: 400}`, rule 1's antecedent
pair `(noise_lden, quiet)` has no matching entry in the fuzzification
result, yet the rule fires at strength 1: it appears among the activated
rules and raises the `excellent` aggregation to 1 (the code fires a rule
whenever at least one antecedent matches, taking the minimum over the
matched subset only). -/
theorem missing_antecedent_rule_still_fires_counterexample :
    (⟨1, "Quiet environment with high daylight and good views",
       [("noise_lden", "quiet"), ("daylight", "high"), ("view_sky", "good")],
       "excellent", 1⟩ : Rule) ∈ rules ∧
    antecedent_degree
        (compute_single_dwelling [("daylight", 400)]).input_fuzzification
        ("noise_lden", "quiet") = none ∧
    (⟨1, "Quiet environment with high daylight and good views", 1⟩ : ActivatedRule) ∈
        (compute_single_dwelling [("daylight", 400)]).activated_rules ∧
    (compute_single_dwelling [("daylight", 400)]).output_memberships.excellent = 1 := by
  with_unfolding_all decide

/-! ## C2 -/

/-- C2 (amended): a feature record in which no rule has ANY antecedent
(variable, term) pair matched by the fuzzification result — in particular
the empty record — scores exactly 50 with label "good"; the 50 default is
the explicit zero-envelope branch of `_defuzzify_centroid`, not a division
by zero.  (The original precondition, that merely no rule has ALL of its
antecedent variables present, is refuted by
`no_fully_matched_rule_yet_score_not_default_counterexample`.) -/
theorem unmatched_record_defaults_to_50_good (features : List (String × ℚ))
    (h : ∀ rule ∈ rules, ∀ p ∈ rule.antecedents,
        antecedent_degree (fuzzify_features features) p = none) :
    (compute_single_dwelling features).fli_score = 50 ∧
    (compute_single_dwelling features).linguistic_label = "good" := by
  have hst : eval_rules (fuzzify_features features) = ⟨⟨0, 0, 0, 0⟩, []⟩ :=
    foldl_fixed _ _ _ (fun st r hr => apply_rule_skip (activation_degrees_eq_nil (h r hr)))
  constructor
  · show defuzzify_centroid (eval_rules (fuzzify_features features)).output_aggregation = 50
    rw [hst]; with_unfolding_all decide
  · show get_linguistic_label
        (defuzzify_centroid (eval_rules (fuzzify_features features)).output_aggregation) = "good"
    rw [hst]; with_unfolding_all decide

/-- Witness for C2 (amended): the empty feature record. -/
theorem unmatched_record_defaults_to_50_good_witness :
    (∀ rule ∈ rules, ∀ p ∈ rule.antecedents,
        antecedent_degree (fuzzify_features []) p = none) ∧
    (compute_single_dwelling []).fli_score = 50 ∧
    (compute_single_dwelling []).linguistic_label = "good" :=
  ⟨by with_unfolding_all decide, unmatched_record_defaults_to_50_good [] (by with_unfolding_all decide)⟩

/-- C2 counterexample: in the record `{daylight: 400}` no rule has all of
its antecedent variables present in the fuzzified inputs (every rule names
some variable other than daylight), yet the score is not the 50 default —
partially matched rules fire. -/
theorem no_fully_matched_rule_yet_score_not_default_counterexample :
    (∀ rule ∈ rules, ∃ p ∈ rule.antecedents,
        dictGet p.1 (compute_single_dwelling [("daylight", 400)]).input_fuzzification
          = none) ∧
    (compute_single_dwelling [("daylight", 400)]).fli_score ≠ 50 := by
  with_unfolding_all decide

/-! ## C3 -/

/-- C3 (amended): the membership-model lookups signal undefined names with
`none` / empty results instead of typed errors: `get_universe` returns
`none` for an unknown variable; `fuzzify_value` returns the empty mapping
(an ordinary value, where the spec-modelled contract
`fuzzify_value_spec` fails with `UnknownVariable`); and
`get_membership_function` returns the same `none` both for an unknown
variable and for an unknown term on a defined variable. -/
theorem undefined_lookups_return_none (var term : String) (v : ℚ) :
    (dictGet var universes = none → get_universe var = none) ∧
    (dictGet var membership_breakpoints = none →
      fuzzify_value var v = [] ∧
      get_membership_function var term = none ∧
      fuzzify_value_spec var v = Except.error LookupError.unknownVariable) ∧
    (∀ defs, dictGet var membership_breakpoints = some defs →
      (∀ m ∈ defs, m.term ≠ term) →
      get_membership_function var term = none ∧
      membership_function_spec var term = Except.error LookupError.unknownTerm) := by
  refine ⟨fun h => h, fun h => ?_, fun defs hdefs hterm => ?_⟩
  · simp [fuzzify_value, get_membership_function, fuzzify_value_spec, mfSamples, h]
  · have hsamp : mfSamples var =
        some (defs.map (fun m =>
          (m.term, ((get_universe var).getD []).map (trapmfAt m.a m.b m.c m.d)))) := by
      simp [mfSamples, hdefs]
    have hnone : dictGet term
        (defs.map (fun m =>
          (m.term, ((get_universe var).getD []).map (trapmfAt m.a m.b m.c m.d)))) = none :=
      dictGet_map_term_eq_none _ defs hterm
    rw [get_membership_function, membership_function_spec, hsamp]
    simp [hnone]

/-- Witness for C3 (amended): the undefined variable `"xyz"` and, on the
defined variable `"livability"`, the undefined term `"bogus"`. -/
theorem undefined_lookups_return_none_witness :
    get_universe "xyz" = none ∧
    fuzzify_value "xyz" 0 = [] ∧
    get_membership_function "xyz" "bogus" = none ∧
    fuzzify_value_spec "xyz" 0 = Except.error LookupError.unknownVariable ∧
    get_membership_function "livability" "bogus" = none ∧
    membership_function_spec "livability" "bogus" = Except.error LookupError.unknownTerm := by
  have hliv := (undefined_lookups_return_none "livability" "bogus" 0).2.2
    [⟨"poor", 0, 0, 15, 35⟩, ⟨"fair", 25, 40, 40, 55⟩,
     ⟨"good", 45, 60, 60, 75⟩, ⟨"excellent", 65, 80, 100, 100⟩]
    (by with_unfolding_all decide) (by with_unfolding_all decide)
  exact ⟨(undefined_lookups_return_none "xyz" "bogus" 0).1 (by with_unfolding_all decide),
    ((undefined_lookups_return_none "xyz" "bogus" 0).2.1 (by with_unfolding_all decide)).1,
    ((undefined_lookups_return_none "xyz" "bogus" 0).2.1 (by with_unfolding_all decide)).2.1,
    ((undefined_lookups_return_none "xyz" "bogus" 0).2.1 (by with_unfolding_all decide)).2.2,
    hliv.1, hliv.2⟩

/-- C3 counterexample: at the concrete undefined variable `"xyz"`,
`fuzzify_value` returns the empty mapping — a normal, non-error value —
and `get_membership_function` yields the same `none` for an unknown
variable as for an unknown term of a defined variable, so none of the
lookups fails with a typed `UnknownVariable` / `UnknownTerm` error as the
claim states (the spec-modelled contracts `fuzzify_value_spec` and
`membership_function_spec` show what such failures would look like). -/
theorem lookups_do_not_raise_typed_errors_counterexample :
    fuzzify_value "xyz" 0 = [] ∧
    fuzzify_value_spec "xyz" 0 = Except.error LookupError.unknownVariable ∧
    get_universe "xyz" = none ∧
    get_membership_function "xyz" "quiet" = none ∧
    get_membership_function "livability" "bogus" = none ∧
    membership_function_spec "xyz" "quiet" = Except.error LookupError.unknownVariable ∧
    membership_function_spec "livability" "bogus" = Except.error LookupError.unknownTerm := by
  with_unfolding_all decide

/-! ## C4 -/

/-- C4: a rule of the rule base all of whose antecedent pairs have matching
fuzzified entries fires at exactly the minimum of its antecedent membership
degrees multiplied by its weight (fuzzy AND is `min`, not a product). -/
theorem fully_matched_rule_fires_at_min_times_weight
    (fuzzified : Fuzzified) (rule : Rule) (hr : rule ∈ rules)
    (h : ∀ p ∈ rule.antecedents, (antecedent_degree fuzzified p).isSome) :
    eff_activation fuzzified rule =
      minList (rule.antecedents.map (fun p => (antecedent_degree fuzzified p).getD 0)) *
        rule.weight := by
  have hne : rule.antecedents ≠ [] := by
    have hall : ∀ r ∈ rules, r.antecedents ≠ [] := by decide
    exact hall rule hr
  have hds : activation_degrees fuzzified rule =
      rule.antecedents.map (fun p => (antecedent_degree fuzzified p).getD 0) :=
    filterMap_eq_map_of_isSome _ 0 _ h
  rw [eff_activation, hds]
  rw [if_neg (by simpa [List.isEmpty_iff, List.map_eq_nil_iff] using hne)]

/-- Witness for C4: rule 1 against a fuzzification result giving its three
antecedents degrees 0.9, 0.2 and 0.6 — the firing strength is exactly
`min = 0.2` (a product t-norm would give 0.108). -/
theorem fully_matched_rule_fires_at_min_times_weight_witness :
    (⟨1, "Quiet environment with high daylight and good views",
       [("noise_lden", "quiet"), ("daylight", "high"), ("view_sky", "good")],
       "excellent", 1⟩ : Rule) ∈ rules ∧
    eff_activation
        [("noise_lden", [("quiet", 9/10)]), ("daylight", [("high", 1/5)]),
         ("view_sky", [("good", 3/5)])]
        ⟨1, "Quiet environment with high daylight and good views",
         [("noise_lden", "quiet"), ("daylight", "high"), ("view_sky", "good")],
         "excellent", 1⟩ =
      minList ([("noise_lden", "quiet"), ("daylight", "high"), ("view_sky", "good")].map
        (fun p => (antecedent_degree
          [("noise_lden", [("quiet", 9/10)]), ("daylight", [("high", 1/5)]),
           ("view_sky", [("good", 3/5)])] p).getD 0)) * 1 ∧
    eff_activation
        [("noise_lden", [("quiet", 9/10)]), ("daylight", [("high", 1/5)]),
         ("view_sky", [("good", 3/5)])]
        ⟨1, "Quiet environment with high daylight and good views",
         [("noise_lden", "quiet"), ("daylight", "high"), ("view_sky", "good")],
         "excellent", 1⟩ = 1/5 :=
  ⟨by with_unfolding_all decide,
   fully_matched_rule_fires_at_min_times_weight _ _ (by with_unfolding_all decide) (by with_unfolding_all decide),
   by with_unfolding_all decide⟩

/-! ## C5 -/

theorem OutputAgg.get_set (a : OutputAgg) (c t : String) (v : ℚ)
    (ht : t = "poor" ∨ t = "fair" ∨ t = "good" ∨ t = "excellent") :
    (a.set c v).get t = if c = t then v else a.get t := by
  rcases ht with h | h | h | h <;> subst h <;>
    simp only [OutputAgg.get, OutputAgg.set] <;> split_ifs <;> simp_all

theorem apply_rule_agg_get (fz : Fuzzified) (st : EvalState) (r : Rule) (t : String)
    (ht : t = "poor" ∨ t = "fair" ∨ t = "good" ∨ t = "excellent")
    (h0 : 0 ≤ st.output_aggregation.get t) :
    (apply_rule fz st r).output_aggregation.get t =
      if r.consequent = t then
        max (st.output_aggregation.get t) (eff_activation fz r)
      else st.output_aggregation.get t := by
  rw [apply_rule, eff_activation]
  rcases hds : (activation_degrees fz r).isEmpty with _ | _
  · simp only [hds, Bool.false_eq_true, if_false]
    rw [OutputAgg.get_set _ _ _ _ ht]
    split_ifs with hc
    · rw [hc]
    · rfl
  · simp only [hds, if_true]
    split_ifs with hc
    · rw [max_eq_left h0]
    · rfl

theorem agg_get_nonneg_step (fz : Fuzzified) (st : EvalState) (r : Rule) (t : String)
    (ht : t = "poor" ∨ t = "fair" ∨ t = "good" ∨ t = "excellent")
    (h0 : 0 ≤ st.output_aggregation.get t) :
    0 ≤ (apply_rule fz st r).output_aggregation.get t := by
  rw [apply_rule_agg_get fz st r t ht h0]
  split_ifs
  · exact le_trans h0 (le_max_left _ _)
  · exact h0

theorem foldl_agg_get (fz : Fuzzified) (t : String)
    (ht : t = "poor" ∨ t = "fair" ∨ t = "good" ∨ t = "excellent") :
    ∀ (l : List Rule) (st : EvalState), 0 ≤ st.output_aggregation.get t →
      (l.foldl (apply_rule fz) st).output_aggregation.get t =
        l.foldl
          (fun m r => if r.consequent = t then max m (eff_activation fz r) else m)
          (st.output_aggregation.get t)
  | [], _, _ => rfl
  | r :: l, st, h0 => by
      rw [List.foldl_cons, List.foldl_cons,
        foldl_agg_get fz t ht l _ (agg_get_nonneg_step fz st r t ht h0),
        apply_rule_agg_get fz st r t ht h0]

/-- C5: for every fuzzification result and each of the four output terms,
the final output aggregation equals the maximum (folded from the initial
0, never a sum) of the effective firing strengths of exactly the rules
whose consequent is that term. -/
theorem aggregation_is_max_over_consequent_rules (fz : Fuzzified) :
    ((eval_rules fz).output_aggregation.poor =
      ((rules.filter (fun r => r.consequent = "poor")).map (eff_activation fz)).foldl max 0) ∧
    ((eval_rules fz).output_aggregation.fair =
      ((rules.filter (fun r => r.consequent = "fair")).map (eff_activation fz)).foldl max 0) ∧
    ((eval_rules fz).output_aggregation.good =
      ((rules.filter (fun r => r.consequent = "good")).map (eff_activation fz)).foldl max 0) ∧
    ((eval_rules fz).output_aggregation.excellent =
      ((rules.filter (fun r => r.consequent = "excellent")).map (eff_activation fz)).foldl max 0) := by
  refine ⟨?_, ?_, ?_, ?_⟩
  · have h := foldl_agg_get fz "poor" (by norm_num) rules ⟨⟨0, 0, 0, 0⟩, []⟩ (by norm_num [OutputAgg.get])
    have hget : (eval_rules fz).output_aggregation.poor =
        (eval_rules fz).output_aggregation.get "poor" := by simp [OutputAgg.get]
    rw [hget, eval_rules, h]
    simp [rules, OutputAgg.get, List.filter]
  · have h := foldl_agg_get fz "fair" (by norm_num) rules ⟨⟨0, 0, 0, 0⟩, []⟩ (by norm_num [OutputAgg.get])
    have hget : (eval_rules fz).output_aggregation.fair =
        (eval_rules fz).output_aggregation.get "fair" := by simp [OutputAgg.get]
    rw [hget, eval_rules, h]
    simp [rules, OutputAgg.get, List.filter]
  · have h := foldl_agg_get fz "good" (by norm_num) rules ⟨⟨0, 0, 0, 0⟩, []⟩ (by norm_num [OutputAgg.get])
    have hget : (eval_rules fz).output_aggregation.good =
        (eval_rules fz).output_aggregation.get "good" := by simp [OutputAgg.get]
    rw [hget, eval_rules, h]
    simp [rules, OutputAgg.get, List.filter]
  · have h := foldl_agg_get fz "excellent" (by norm_num) rules ⟨⟨0, 0, 0, 0⟩, []⟩ (by norm_num [OutputAgg.get])
    have hget : (eval_rules fz).output_aggregation.excellent =
        (eval_rules fz).output_aggregation.get "excellent" := by simp [OutputAgg.get]
    rw [hget, eval_rules, h]
    simp [rules, OutputAgg.get, List.filter]

/-! ## C9 -/

theorem fuzzify_features_lookup (var : String)
    (hvar : (dictGet var membership_breakpoints).isSome) :
    ∀ feats : List (String × ℚ),
      dictGet var (fuzzify_features feats) =
        (dictGet var feats).map (fun value => fuzzify_value var value)
  | [] => rfl
  | (k, value) :: rest => by
      by_cases hk : var = k
      · subst hk
        rw [fuzzify_features, List.filterMap_cons]
        simp only [hvar, if_true]
        simp [dictGet]
      · rw [fuzzify_features, List.filterMap_cons]
        rcases hrec : (dictGet k membership_breakpoints).isSome with _ | _
        · simp only [hrec, Bool.false_eq_true, if_false]
          rw [← fuzzify_features]
          rw [fuzzify_features_lookup var hvar rest]
          simp [dictGet, hk]
        · simp only [hrec, if_true]
          show dictGet var ((k, fuzzify_value k value) :: fuzzify_features rest) = _
          simp only [dictGet, if_neg hk]
          rw [fuzzify_features_lookup var hvar rest]

/-- C9: in the batch-scoring pipeline (`compute_batch` with the default
feature mapping), a `daylight_avg` value strictly below 10 is multiplied
by 1000 before fuzzification while a value of 10 or more is passed
unchanged: the extracted feature record maps `daylight` to the converted
value, and the scored record's fuzzification result fuzzifies exactly that
converted value. -/
theorem daylight_below_10_is_scaled_before_fuzzification
    (row : List (String × ℚ)) (v : ℚ)
    (hv : dictGet "daylight_avg" row = some v) :
    dictGet "daylight" (extract_features row) =
      some (if v < 10 then v * 1000 else v) ∧
    dictGet "daylight"
        (compute_single_dwelling (extract_features row)).input_fuzzification =
      some (fuzzify_value "daylight" (if v < 10 then v * 1000 else v)) := by
  have hd : dictGet "daylight" (extract_features row) =
      some (if v < 10 then v * 1000 else v) := by
    rw [extract_features, default_feature_mapping]
    simp only [List.foldl_cons, List.foldl_nil]
    rcases h1 : dictGet "noise_lden" row with _ | v1 <;>
      rcases h2 : dictGet "noise_lnight" row with _ | v2 <;>
        rcases h5 : dictGet "view_sky" row with _ | v5 <;>
          rcases h6 : dictGet "view_greenery" row with _ | v6 <;>
            rcases h7 : dictGet "location_poi_count" row with _ | v7 <;>
              simp [h1, h2, hv, h5, h6, h7, dictGet]
  refine ⟨hd, ?_⟩
  show dictGet "daylight" (fuzzify_features (extract_features row)) = _
  rw [fuzzify_features_lookup "daylight" (by with_unfolding_all decide)
    (extract_features row), hd]
  rfl

/-- Witness for C9: a row with `daylight_avg = 2` (klx scale) is scored
with `daylight = 2000`, and a row with `daylight_avg = 350` is scored with
`daylight = 350`. -/
theorem daylight_below_10_is_scaled_before_fuzzification_witness :
    (dictGet "daylight" (extract_features [("daylight_avg", 2)]) =
        some (if (2 : ℚ) < 10 then 2 * 1000 else 2) ∧
      dictGet "daylight"
          (compute_single_dwelling (extract_features [("daylight_avg", 2)])).input_fuzzification =
        some (fuzzify_value "daylight" (if (2 : ℚ) < 10 then 2 * 1000 else 2))) ∧
    dictGet "daylight" (extract_features [("daylight_avg", 2)]) = some 2000 ∧
    dictGet "daylight" (extract_features [("daylight_avg", 350)]) = some 350 :=
  ⟨daylight_below_10_is_scaled_before_fuzzification [("daylight_avg", 2)] 2
      (by with_unfolding_all decide),
   by with_unfolding_all decide, by with_unfolding_all decide⟩

/-! ## C7 -/

theorem arangeList_chain (lo step : ℚ) (hstep : 0 < step) (n : ℕ) :
    List.Chain' (· < ·) (arangeList lo step n) := by
  rw [arangeList]
  refine List.Pairwise.chain' ?_
  rw [List.pairwise_map]
  refine (List.pairwise_lt_range n).imp ?_
  intro i j hij
  have h1 : (i : ℚ) < j := by exact_mod_cast hij
  nlinarith

theorem universes_chain : ∀ p ∈ universes, List.Chain' (· < ·) p.2 := by
  intro p hp
  simp only [universes, List.mem_cons, List.not_mem_nil, or_false] at hp
  rcases hp with rfl | rfl | rfl | rfl | rfl | rfl | rfl <;>
    exact arangeList_chain _ _ (by norm_num) _

theorem dictGet_mem {β : Type} {k : String} {v : β} :
    ∀ {l : List (String × β)}, dictGet k l = some v → (k, v) ∈ l := by
  intro l
  induction l with
  | nil => intro h; cases h
  | cons p rest ih =>
      intro h
      rw [dictGet] at h
      split_ifs at h with hk
      · cases h; rw [hk]; exact List.mem_cons_self _ _
      · exact List.mem_cons_of_mem _ (ih h)

theorem trapmfAt_bounds (a b c d u : ℚ) (_hab : a ≤ b) (_hbc : b ≤ c) (_hcd : c ≤ d) :
    0 ≤ trapmfAt a b c d u ∧ trapmfAt a b c d u ≤ 1 := by
  rw [trapmfAt]
  split_ifs with h1 h2 h3 h4
  · norm_num
  · have hau : a ≤ u := not_lt.mp h1
    have hablt : a < b := lt_of_le_of_lt hau h2
    constructor
    · exact div_nonneg (by linarith) (by linarith)
    · rw [div_le_one (by linarith)]; linarith
  · norm_num
  · have hcu : c < u := not_le.mp h3
    have hcdlt : c < d := lt_trans hcu h4
    constructor
    · exact div_nonneg (by linarith) (by linarith)
    · rw [div_le_one (by linarith)]; linarith
  · norm_num

theorem breakpoints_ordered :
    ∀ p ∈ membership_breakpoints, ∀ m ∈ p.2, m.a ≤ m.b ∧ m.b ≤ m.c ∧ m.c ≤ m.d := by
  with_unfolding_all decide

theorem interpFrom_bounds (v : ℚ) :
    ∀ (pts : List (ℚ × ℚ)) (x1 y1 : ℚ), x1 ≤ v → 0 ≤ y1 → y1 ≤ 1 →
      List.Chain' (· < ·) (x1 :: pts.map Prod.fst) →
      (∀ q ∈ pts, 0 ≤ q.2 ∧ q.2 ≤ 1) →
      0 ≤ interpFrom v x1 y1 pts ∧ interpFrom v x1 y1 pts ≤ 1
  | [], x1, y1, _, hy0, hy1, _, _ => by
      rw [interpFrom]
      split_ifs
      · exact ⟨hy0, hy1⟩
      · norm_num
  | (x2, y2) :: rest, x1, y1, hxv, hy0, hy1, hchain, hq => by
      have hx12 : x1 < x2 := by
        have := hchain.rel_head
        simpa using this
      have hy2 := hq (x2, y2) (by simp)
      rw [interpFrom]
      split_ifs with hvx2
      · set t : ℚ := (v - x1) / (x2 - x1) with hT
        have ht0 : 0 ≤ t := div_nonneg (by linarith) (by linarith)
        have ht1 : t ≤ 1 := by
          rw [hT, div_le_one (by linarith)]; linarith
        have hval : y1 + (y2 - y1) * (v - x1) / (x2 - x1) = y1 + (y2 - y1) * t := by
          rw [hT]; ring
        rw [hval]
        constructor
        · nlinarith [mul_nonneg ht0 hy2.1, mul_nonneg (sub_nonneg.mpr ht1) hy0]
        · nlinarith [mul_nonneg (sub_nonneg.mpr ht1) (sub_nonneg.mpr hy1),
            mul_nonneg ht0 (sub_nonneg.mpr hy2.2)]
      · have hxv2 : x2 ≤ v := le_of_lt (not_le.mp hvx2)
        have hchain2 : List.Chain' (· < ·) (x2 :: rest.map Prod.fst) := by
          have := hchain.tail
          simpa using this
        exact interpFrom_bounds v rest x2 y2 hxv2 hy2.1 hy2.2 hchain2
          (fun q hq' => hq q (List.mem_cons_of_mem _ hq'))

theorem chain'_fst_zip {r : ℚ → ℚ → Prop} :
    ∀ (xs ys : List ℚ), List.Chain' r xs →
      List.Chain' (fun p q => r (Prod.fst p) (Prod.fst q)) (xs.zip ys)
  | [], _, _ => List.chain'_nil
  | _ :: _, [], _ => by simp
  | [_], _ :: _, _ => by simp
  | x1 :: x2 :: xr, y1 :: y2 :: yr, h => by
      rw [List.zip_cons_cons, List.zip_cons_cons, List.chain'_cons]
      constructor
      · exact (List.chain'_cons.mp h).1
      · have := chain'_fst_zip (x2 :: xr) (y2 :: yr) (List.chain'_cons.mp h).2
        rwa [List.zip_cons_cons] at this
  | _ :: x2 :: xr, [_], _ => by simp

theorem interp_membership_bounds :
    ∀ (xs ys : List ℚ) (v : ℚ), List.Chain' (· < ·) xs →
      (∀ y ∈ ys, 0 ≤ y ∧ y ≤ 1) →
      0 ≤ interp_membership xs ys v ∧ interp_membership xs ys v ≤ 1
  | [], ys, v, _, _ => ⟨le_of_eq rfl, zero_le_one⟩
  | _ :: _, [], v, _, _ => ⟨le_of_eq rfl, zero_le_one⟩
  | x1 :: xr, y1 :: yr, v, hxs, hys => by
      rw [interp_membership]
      split_ifs with hlt
      · norm_num
      · have hy1 := hys y1 (by simp)
        have hxv : x1 ≤ v := not_lt.mp hlt
        have hch : List.Chain' (· < ·) (x1 :: (xr.zip yr).map Prod.fst) := by
          have hmap := chain'_fst_zip (r := (· < ·)) (x1 :: xr) (y1 :: yr) hxs
          have hzc : (x1 :: xr).zip (y1 :: yr) = (x1, y1) :: xr.zip yr := rfl
          rw [hzc] at hmap
          exact (List.chain'_map Prod.fst).mpr hmap
        refine interpFrom_bounds v (xr.zip yr) x1 y1 hxv hy1.1 hy1.2 hch ?_
        rintro ⟨qa, qb⟩ hq'
        exact hys qb (List.mem_cons_of_mem _ (List.of_mem_zip hq').2)

theorem dictGet_map_eq_some {α β : Type} (g : String × α → β) (k : String) {d : β} :
    ∀ l : List (String × α),
      dictGet k (l.map (fun tm => (tm.1, g tm))) = some d → ∃ tm ∈ l, d = g tm
  | [], h => by cases h
  | tm :: rest, h => by
      rw [List.map_cons, dictGet] at h
      split_ifs at h with hk
      · exact ⟨tm, by simp, by cases h; rfl⟩
      · rcases dictGet_map_eq_some g k rest h with ⟨tm', htm', hd⟩
        exact ⟨tm', List.mem_cons_of_mem _ htm', hd⟩

theorem fuzzify_value_degree_bounds (var term : String) (value d : ℚ)
    (h : dictGet term (fuzzify_value var value) = some d) : 0 ≤ d ∧ d ≤ 1 := by
  rw [fuzzify_value] at h
  rcases hms : mfSamples var with _ | terms
  · rw [hms] at h; cases h
  · rw [hms] at h
    rcases dictGet_map_eq_some _ term terms h with ⟨tm, htm, hd⟩
    rw [mfSamples] at hms
    rcases hbp : dictGet var membership_breakpoints with _ | defs
    · rw [hbp] at hms; cases hms
    · rw [hbp] at hms
      have hterms : terms = defs.map (fun m =>
          (m.term, ((get_universe var).getD []).map (trapmfAt m.a m.b m.c m.d))) := by
        cases hms; rfl
      subst hterms
      rcases List.mem_map.mp htm with ⟨m, hm, htmm⟩
      have hmord := breakpoints_ordered (var, defs) (dictGet_mem hbp) m hm
      subst hd
      have huniv_some : (dictGet var universes).isSome := by
        have : ∀ p ∈ membership_breakpoints, (dictGet p.1 universes).isSome := by
          with_unfolding_all decide
        exact this (var, defs) (dictGet_mem hbp)
      rcases hu : dictGet var universes with _ | univ
      · rw [hu] at huniv_some; cases huniv_some
      · have hchain : List.Chain' (· < ·) univ := universes_chain (var, univ) (dictGet_mem hu)
        have hgud : (get_universe var).getD [] = univ := by rw [get_universe, hu]; rfl
        rw [← htmm]
        simp only [hgud]
        refine interp_membership_bounds univ _ value hchain ?_
        intro y hy
        rcases List.mem_map.mp hy with ⟨u, _, hu'⟩
        rw [← hu']
        exact trapmfAt_bounds m.a m.b m.c m.d u hmord.1 hmord.2.1 hmord.2.2

theorem interpFrom_all_lt (v : ℚ) :
    ∀ (pts : List (ℚ × ℚ)) (x1 y1 : ℚ), x1 < v → (∀ q ∈ pts, q.1 < v) →
      interpFrom v x1 y1 pts = 0
  | [], x1, y1, hx, _ => by
      rw [interpFrom, if_neg (fun he => absurd he (by rw [he] at hx; exact absurd hx (lt_irrefl _)))]
  | (x2, y2) :: rest, x1, y1, hx, hall => by
      rw [interpFrom, if_neg (not_le.mpr (hall (x2, y2) (by simp)))]
      exact interpFrom_all_lt v rest x2 y2 (hall (x2, y2) (by simp))
        (fun q hq' => hall q (List.mem_cons_of_mem _ hq'))

theorem interp_membership_zero_outside :
    ∀ (xs ys : List ℚ) (v : ℚ),
      ((∀ x ∈ xs, v < x) ∨ (∀ x ∈ xs, x < v)) → interp_membership xs ys v = 0
  | [], _, v, _ => rfl
  | _ :: _, [], v, _ => rfl
  | x1 :: xr, y1 :: yr, v, h => by
      rw [interp_membership]
      rcases h with h | h
      · rw [if_pos (h x1 (by simp))]
      · rw [if_neg (not_lt.mpr (le_of_lt (h x1 (by simp))))]
        refine interpFrom_all_lt v _ x1 y1 (h x1 (by simp)) ?_
        rintro ⟨qa, qb⟩ hq'
        exact h qa (List.mem_cons_of_mem _ (List.of_mem_zip hq').1)

/-- C7 (amended): every degree produced by `fuzzify_value` for a defined
(variable, term) pair lies in [0, 1] for every rational input, including
inputs outside the variable's sampled universe; an input strictly outside
the sampled universe yields degree 0 for every term (scikit-fuzzy's
`zero_outside_x=True` default) rather than clamping to the nearest edge
degree — the clamping half of the original claim is refuted by
`out_of_range_not_clamped_counterexample`, and no lookup raises (all
operations are total). -/
theorem fuzzify_degrees_unit_interval_and_zero_outside
    (var term : String) (value d : ℚ) (univ : List ℚ)
    (hu : get_universe var = some univ)
    (h : dictGet term (fuzzify_value var value) = some d) :
    (0 ≤ d ∧ d ≤ 1) ∧
    (((∀ x ∈ univ, value < x) ∨ (∀ x ∈ univ, x < value)) → d = 0) := by
  refine ⟨fuzzify_value_degree_bounds var term value d h, fun hout => ?_⟩
  rw [fuzzify_value] at h
  rcases hms : mfSamples var with _ | terms
  · rw [hms] at h; cases h
  · rw [hms] at h
    rcases dictGet_map_eq_some _ term terms h with ⟨tm, _, hd⟩
    have hgud : (get_universe var).getD [] = univ := by rw [hu]; rfl
    rw [hd, hgud]
    exact interp_membership_zero_outside univ tm.2 value hout

/-- Witness for C7 (amended): the defined pair (noise_lden, noisy) at the
out-of-range input 90 dBA (universe tops out at 84.5): the degree is 0,
within [0, 1]. -/
theorem fuzzify_degrees_unit_interval_and_zero_outside_witness :
    ((0 ≤ (0 : ℚ) ∧ (0 : ℚ) ≤ 1) ∧
      (((∀ x ∈ arangeList 30 (1/2) 110, (90 : ℚ) < x) ∨
        (∀ x ∈ arangeList 30 (1/2) 110, x < (90 : ℚ))) → (0 : ℚ) = 0)) ∧
    dictGet "noisy" (fuzzify_value "noise_lden" 90) = some 0 ∧
    (∀ x ∈ arangeList 30 (1/2) 110, x < (90 : ℚ)) :=
  ⟨fuzzify_degrees_unit_interval_and_zero_outside "noise_lden" "noisy" 90 0
      (arangeList 30 (1/2) 110)
      (by with_unfolding_all decide) (by with_unfolding_all decide),
   by with_unfolding_all decide, by with_unfolding_all decide⟩

/-- C7 counterexample: at the out-of-range input 90 dBA the `noisy` degree
is 0, while the nearest edge degree of the sampled `noisy` membership
function (its value at the last universe point, 84.5) is 1 — out-of-range
inputs are zeroed, not clamped to the nearest edge degree. -/
theorem out_of_range_not_clamped_counterexample :
    dictGet "noisy" (fuzzify_value "noise_lden" 90) = some 0 ∧
    List.getLast? ((get_membership_function "noise_lden" "noisy").getD []) = some 1 ∧
    (0 : ℚ) ≠ 1 := by
  with_unfolding_all decide

/-! ## C10 -/

/-- The activated-rule entry a rule contributes for a given fuzzification
result: present exactly when its effective firing strength exceeds the
significance threshold 0.01. -/
def act_entry (fz : Fuzzified) (r : Rule) : Option ActivatedRule :=
  if eff_activation fz r > 1/100 then
    some ⟨r.id, r.description, eff_activation fz r⟩
  else none

theorem apply_rule_acts (fz : Fuzzified) (st : EvalState) (r : Rule) :
    (apply_rule fz st r).activated_rules =
      st.activated_rules ++ (act_entry fz r).toList := by
  rw [apply_rule, act_entry, eff_activation]
  rcases hds : (activation_degrees fz r).isEmpty with _ | _
  · simp only [hds, Bool.false_eq_true, if_false]
    split_ifs with hact
    · rw [Option.toList_some]
    · rw [Option.toList_none, List.append_nil]
  · simp only [hds, if_true]
    rw [if_neg (by norm_num), Option.toList_none, List.append_nil]

theorem foldl_acts (fz : Fuzzified) :
    ∀ (l : List Rule) (st : EvalState),
      (l.foldl (apply_rule fz) st).activated_rules =
        st.activated_rules ++ l.filterMap (act_entry fz)
  | [], st => by rw [List.foldl_nil, List.filterMap_nil, List.append_nil]
  | r :: l, st => by
      rw [List.foldl_cons, foldl_acts fz l _, apply_rule_acts, List.filterMap_cons]
      rcases he : act_entry fz r with _ | a
      · rw [Option.toList_none, List.append_nil]
      · rw [Option.toList_some, List.append_assoc]
        rfl

theorem act_entry_some {fz : Fuzzified} {r : Rule} {a : ActivatedRule}
    (h : act_entry fz r = some a) :
    a.rule_id = r.id ∧ a.description = r.description ∧
      a.activation = eff_activation fz r ∧ 1/100 < eff_activation fz r := by
  rw [act_entry] at h
  split_ifs at h with hgt
  · cases h
    exact ⟨rfl, rfl, rfl, hgt⟩

theorem pairwise_filterMap_ids (fz : Fuzzified) :
    ∀ l : List Rule, l.Pairwise (fun r s => r.id < s.id) →
      (l.filterMap (act_entry fz)).Pairwise (fun a b => a.rule_id < b.rule_id)
  | [], _ => List.Pairwise.nil
  | r :: l, h => by
      rw [List.filterMap_cons]
      have htail := pairwise_filterMap_ids fz l (List.pairwise_cons.mp h).2
      rcases he : act_entry fz r with _ | a
      · exact htail
      · refine List.pairwise_cons.mpr ⟨?_, htail⟩
        intro b hb
        rcases List.mem_filterMap.mp hb with ⟨s, hs, hbs⟩
        rw [(act_entry_some he).1, (act_entry_some hbs).1]
        exact (List.pairwise_cons.mp h).1 s hs

theorem fuzzify_features_values :
    ∀ (feats : List (String × ℚ)) (var : String) (m : List (String × ℚ)),
      dictGet var (fuzzify_features feats) = some m →
      ∃ value : ℚ, m = fuzzify_value var value
  | [], _, _, h => by cases h
  | (k, value) :: rest, var, m, h => by
      rw [fuzzify_features, List.filterMap_cons] at h
      rcases hrec : (dictGet k membership_breakpoints).isSome with _ | _
      · rw [hrec] at h
        simp only [Bool.false_eq_true, if_false] at h
        exact fuzzify_features_values rest var m h
      · rw [hrec] at h
        simp only [if_true] at h
        rw [dictGet] at h
        split_ifs at h with hk
        · exact ⟨value, by cases h; rw [hk]⟩
        · exact fuzzify_features_values rest var m h

theorem antecedent_degree_bounds (features : List (String × ℚ))
    (p : String × String) (d : ℚ)
    (h : antecedent_degree (fuzzify_features features) p = some d) :
    0 ≤ d ∧ d ≤ 1 := by
  rw [antecedent_degree] at h
  rcases hv : dictGet p.1 (fuzzify_features features) with _ | m
  · rw [hv] at h; cases h
  · rw [hv] at h
    rcases fuzzify_features_values features p.1 m hv with ⟨value, hm⟩
    subst hm
    exact fuzzify_value_degree_bounds p.1 p.2 value d h

theorem minList_bounds :
    ∀ (x : ℚ) (xs : List ℚ), (∀ y ∈ x :: xs, 0 ≤ y ∧ y ≤ 1) →
      0 ≤ minList (x :: xs) ∧ minList (x :: xs) ≤ 1
  | x, [], h => h x (by simp)
  | x, y :: ys, h => by
      have hx := h x (by simp)
      have hy := h y (by simp)
      have hmin : 0 ≤ min x y ∧ min x y ≤ 1 :=
        ⟨le_min hx.1 hy.1, min_le_of_left_le hx.2⟩
      have := minList_bounds (min x y) ys
        (fun z hz => by
          rcases List.mem_cons.mp hz with rfl | hz'
          · exact hmin
          · exact h z (by simp [hz']))
      rw [minList] at this ⊢
      rw [List.foldl_cons]
      exact this

theorem eff_activation_bounds (features : List (String × ℚ)) (r : Rule)
    (hr : r ∈ rules) :
    0 ≤ eff_activation (fuzzify_features features) r ∧
      eff_activation (fuzzify_features features) r ≤ 1 := by
  rw [eff_activation]
  rcases hds : activation_degrees (fuzzify_features features) r with _ | ⟨d0, ds⟩
  · norm_num
  · rw [List.isEmpty_cons]
    simp only [Bool.false_eq_true, if_false]
    have hdeg : ∀ y ∈ d0 :: ds, 0 ≤ y ∧ y ≤ 1 := by
      intro y hy
      have hy' : y ∈ activation_degrees (fuzzify_features features) r := by
        rw [hds]; exact hy
      rcases List.mem_filterMap.mp hy' with ⟨p, _, hp⟩
      exact antecedent_degree_bounds features p y hp
    have hmin := minList_bounds d0 ds hdeg
    have hw : 0 < r.weight ∧ r.weight ≤ 1 := by
      have hall : ∀ s ∈ rules, 0 < s.weight ∧ s.weight ≤ 1 := by
        with_unfolding_all decide
      exact hall r hr
    constructor
    · exact mul_nonneg hmin.1 (le_of_lt hw.1)
    · calc minList (d0 :: ds) * r.weight ≤ 1 * 1 := by nlinarith [hmin.1, hmin.2, hw.1, hw.2]
        _ = 1 := by norm_num

/-- C10: for every feature record, the `activated_rules` list is exactly
the rule base filtered to the rules whose effective firing strength
strictly exceeds 0.01 (in the rule base's definition order, so rule ids
appear strictly ascending), and every recorded activation lies in
(0.01, 1]. -/
theorem activated_rules_exactly_above_threshold (features : List (String × ℚ)) :
    (compute_single_dwelling features).activated_rules =
      rules.filterMap (act_entry (fuzzify_features features)) ∧
    (compute_single_dwelling features).activated_rules.Pairwise
      (fun a b => a.rule_id < b.rule_id) ∧
    ∀ a ∈ (compute_single_dwelling features).activated_rules,
      1/100 < a.activation ∧ a.activation ≤ 1 := by
  have hacts : (compute_single_dwelling features).activated_rules =
      rules.filterMap (act_entry (fuzzify_features features)) := by
    show (eval_rules (fuzzify_features features)).activated_rules = _
    rw [eval_rules, foldl_acts]
    rfl
  refine ⟨hacts, ?_, ?_⟩
  · rw [hacts]
    refine pairwise_filterMap_ids _ rules ?_
    have : rules.Pairwise (fun r s => r.id < s.id) := by with_unfolding_all decide
    exact this
  · intro a ha
    rw [hacts] at ha
    rcases List.mem_filterMap.mp ha with ⟨r, hr, hra⟩
    have hsome := act_entry_some hra
    refine ⟨hsome.2.2.1 ▸ hsome.2.2.2, ?_⟩
    rw [hsome.2.2.1]
    exact (eff_activation_bounds features r hr).2

/-- Witness for C10: for the record `{daylight: 400}`, rule 1's entry is
in the activated list and its activation 1 lies in (0.01, 1]. -/
theorem activated_rules_exactly_above_threshold_witness :
    (⟨1, "Quiet environment with high daylight and good views", 1⟩ : ActivatedRule) ∈
      (compute_single_dwelling [("daylight", 400)]).activated_rules ∧
    (1/100 < (1 : ℚ) ∧ (1 : ℚ) ≤ 1) :=
  ⟨by with_unfolding_all decide,
   (activated_rules_exactly_above_threshold [("daylight", 400)]).2.2
     ⟨1, "Quiet environment with high daylight and good views", 1⟩
     (by with_unfolding_all decide)⟩

/-! ## C8 -/

theorem insertDesc_mem (x : ActivatedRule) :
    ∀ (l : List ActivatedRule) (y : ActivatedRule),
      y ∈ insertDesc x l ↔ y = x ∨ y ∈ l
  | [], y => by simp [insertDesc]
  | z :: zs, y => by
      rw [insertDesc]
      split_ifs
      · rw [List.mem_cons, insertDesc_mem x zs y, List.mem_cons]
        tauto
      · simp only [List.mem_cons]

/-- The ordering the explanation must satisfy: strictly greater activation
first; on ties, the smaller rule id first. -/
def explOrd (a b : ActivatedRule) : Prop :=
  b.activation < a.activation ∨
    (a.activation = b.activation ∧ a.rule_id < b.rule_id)

theorem insertDesc_pairwise (x : ActivatedRule) :
    ∀ l : List ActivatedRule, l.Pairwise explOrd →
      (∀ y ∈ l, x.rule_id < y.rule_id) →
      (insertDesc x l).Pairwise explOrd
  | [], _, _ => by simp [insertDesc]
  | y :: ys, hp, hid => by
      rw [insertDesc]
      split_ifs with hxy
      · refine List.pairwise_cons.mpr ⟨?_, ?_⟩
        · intro z hz
          rcases (insertDesc_mem x ys z).mp hz with rfl | hz'
          · exact Or.inl hxy
          · exact (List.pairwise_cons.mp hp).1 z hz'
        · exact insertDesc_pairwise x ys (List.pairwise_cons.mp hp).2
            (fun z hz => hid z (List.mem_cons_of_mem _ hz))
      · refine List.pairwise_cons.mpr ⟨?_, hp⟩
        intro z hz
        rcases List.mem_cons.mp hz with rfl | hz'
        · rcases lt_or_eq_of_le (not_lt.mp hxy) with hlt | heq
          · exact Or.inl hlt
          · exact Or.inr ⟨heq.symm, hid z (by simp)⟩
        · rcases (List.pairwise_cons.mp hp).1 z hz' with hlt | ⟨heq, _⟩
          · exact Or.inl (lt_of_lt_of_le hlt (not_lt.mp hxy))
          · rcases lt_or_eq_of_le (not_lt.mp hxy) with hlt' | heq'
            · exact Or.inl (heq ▸ hlt')
            · exact Or.inr ⟨heq' ▸ heq.symm ▸ rfl, hid z (List.mem_cons_of_mem _ hz')⟩

theorem sortDesc_mem :
    ∀ (l : List ActivatedRule) (y : ActivatedRule), y ∈ sortDesc l ↔ y ∈ l
  | [], y => Iff.rfl
  | x :: xs, y => by
      rw [sortDesc, insertDesc_mem, sortDesc_mem xs y, List.mem_cons]

theorem sortDesc_pairwise :
    ∀ l : List ActivatedRule, l.Pairwise (fun a b => a.rule_id < b.rule_id) →
      (sortDesc l).Pairwise explOrd
  | [], _ => List.Pairwise.nil
  | x :: xs, h => by
      rw [sortDesc]
      refine insertDesc_pairwise x (sortDesc xs)
        (sortDesc_pairwise xs (List.pairwise_cons.mp h).2) ?_
      intro y hy
      exact (List.pairwise_cons.mp h).1 y ((sortDesc_mem xs y).mp hy)

/-- C8: in the explanation for any feature record and any top-N, the
listed activated rules appear in descending order of firing strength, and
whenever two have equal firing strengths the rule with the lower id comes
first (Python's `sorted(..., reverse=True)` is stable, and the activated
rules are generated in ascending-id order). -/
theorem explanation_rules_sorted_desc_ties_by_id
    (features : List (String × ℚ)) (top_n_rules : ℕ) :
    (explain_sorted_rules features top_n_rules).Pairwise
      (fun a b => b.activation < a.activation ∨
        (a.activation = b.activation ∧ a.rule_id < b.rule_id)) := by
  have hid : (compute_single_dwelling features).activated_rules.Pairwise
      (fun a b => a.rule_id < b.rule_id) := by
    have hacts : (compute_single_dwelling features).activated_rules =
        rules.filterMap (act_entry (fuzzify_features features)) := by
      show (eval_rules (fuzzify_features features)).activated_rules = _
      rw [eval_rules, foldl_acts]
      rfl
    rw [hacts]
    refine pairwise_filterMap_ids _ rules ?_
    have : rules.Pairwise (fun r s => r.id < s.id) := by with_unfolding_all decide
    exact this
  have hsorted := sortDesc_pairwise _ hid
  exact hsorted.sublist (List.take_sublist _ _)

/-! ## C6 -/

theorem seg_moment_area_bounds (x1 x2 y1 y2 : ℚ)
    (_hx0 : 0 ≤ x1) (hx : x1 ≤ x2) (hy1 : 0 ≤ y1) (hy2 : 0 ≤ y2) :
    0 ≤ (seg_moment_area x1 x2 y1 y2).2 ∧
      x1 ≤ (seg_moment_area x1 x2 y1 y2).1 ∧
      (seg_moment_area x1 x2 y1 y2).1 ≤ x2 := by
  rw [seg_moment_area]
  split_ifs with h1 h2 h3
  · exact ⟨mul_nonneg (by linarith) hy1, by constructor <;> [linarith; linarith]⟩
  · refine ⟨div_nonneg (mul_nonneg (by linarith) hy2) (by norm_num), by linarith, by linarith⟩
  · refine ⟨div_nonneg (mul_nonneg (by linarith) hy1) (by norm_num), by linarith, by linarith⟩
  · have hy1p : 0 < y1 := lt_of_le_of_ne hy1 (Ne.symm h2)
    have hy2p : 0 < y2 := lt_of_le_of_ne hy2 (Ne.symm h3)
    have hdpos : 0 < y1 + y2 := by linarith
    refine ⟨div_nonneg (mul_nonneg (by linarith) (by linarith)) (by norm_num), ?_, ?_⟩
    · have : 0 ≤ 2/3 * (x2 - x1) * (y2 + y1/2) / (y1 + y2) :=
        div_nonneg (by nlinarith) (le_of_lt hdpos)
      linarith
    · have hfrac : 2/3 * (x2 - x1) * (y2 + y1/2) / (y1 + y2) ≤ x2 - x1 := by
        rw [div_le_iff₀ hdpos]
        nlinarith [mul_nonneg (sub_nonneg.mpr hx) (by linarith : (0:ℚ) ≤ 2/3 * y1 + 1/3 * y2)]
      linarith

theorem centroid_sums_bounds :
    ∀ (p : ℚ × ℚ) (pts : List (ℚ × ℚ)),
      List.Chain' (fun q r => q.1 ≤ r.1) (p :: pts) →
      (∀ q ∈ p :: pts, (0 ≤ q.1 ∧ q.1 ≤ 100) ∧ 0 ≤ q.2) →
      0 ≤ (centroid_sums p pts).2 ∧ 0 ≤ (centroid_sums p pts).1 ∧
        (centroid_sums p pts).1 ≤ 100 * (centroid_sums p pts).2
  | _, [], _, _ => by rw [centroid_sums]; norm_num
  | (x1, y1), (x2, y2) :: rest, hch, hq => by
      have hch2 : List.Chain' (fun q r => q.1 ≤ r.1) ((x2, y2) :: rest) := hch.tail
      have hq2 : ∀ q ∈ (x2, y2) :: rest, (0 ≤ q.1 ∧ q.1 ≤ 100) ∧ 0 ≤ q.2 :=
        fun q hq' => hq q (List.mem_cons_of_mem _ hq')
      have hrec := centroid_sums_bounds (x2, y2) rest hch2 hq2
      have hb1 := hq (x1, y1) (by simp)
      have hb2 := hq (x2, y2) (by simp [List.mem_cons])
      have hx12 : x1 ≤ x2 := by
        have := hch.rel_head
        simpa using this
      rw [centroid_sums]
      split_ifs with hskip
      · exact hrec
      · have hseg := seg_moment_area_bounds x1 x2 y1 y2 hb1.1.1 hx12 hb1.2 hb2.2
        have hmo100 : (seg_moment_area x1 x2 y1 y2).1 ≤ 100 :=
          le_trans hseg.2.2 hb2.1.2
        have hmo0 : 0 ≤ (seg_moment_area x1 x2 y1 y2).1 :=
          le_trans hb1.1.1 hseg.2.1
        refine ⟨by simp only []; linarith [hrec.1, hseg.1], ?_, ?_⟩
        · simp only []
          have := mul_nonneg hmo0 hseg.1
          linarith [hrec.2.1]
        · simp only []
          have hma : (seg_moment_area x1 x2 y1 y2).1 * (seg_moment_area x1 x2 y1 y2).2 ≤
              100 * (seg_moment_area x1 x2 y1 y2).2 := by nlinarith [hseg.1]
          linarith [hrec.2.2]

theorem centroidPts_bounds :
    ∀ pts : List (ℚ × ℚ),
      List.Chain' (fun q r => q.1 ≤ r.1) pts →
      (∀ q ∈ pts, (0 ≤ q.1 ∧ q.1 ≤ 100) ∧ 0 ≤ q.2) →
      0 ≤ centroidPts pts ∧ centroidPts pts ≤ 100
  | [], _, _ => by rw [centroidPts]; norm_num
  | [(x0, y0)], _, hq => by
      rw [centroidPts]
      have h0 := hq (x0, y0) (by simp)
      have hden : 0 < max y0 machine_eps :=
        lt_of_lt_of_le (by norm_num [machine_eps]) (le_max_right _ _)
      constructor
      · exact div_nonneg (mul_nonneg h0.1.1 h0.2) (le_of_lt hden)
      · rw [div_le_iff₀ hden]
        calc x0 * y0 ≤ 100 * y0 := by nlinarith [h0.1.2, h0.2, h0.1.1]
          _ ≤ 100 * max y0 machine_eps := by
              nlinarith [le_max_left y0 machine_eps]
  | p :: q :: rest, hch, hq => by
      have hs := centroid_sums_bounds p (q :: rest) hch hq
      have hden : 0 < max (centroid_sums p (q :: rest)).2 machine_eps :=
        lt_of_lt_of_le (by norm_num [machine_eps]) (le_max_right _ _)
      show 0 ≤ (centroid_sums p (q :: rest)).1 /
          max (centroid_sums p (q :: rest)).2 machine_eps ∧
        (centroid_sums p (q :: rest)).1 /
          max (centroid_sums p (q :: rest)).2 machine_eps ≤ 100
      constructor
      · exact div_nonneg hs.2.1 (le_of_lt hden)
      · rw [div_le_iff₀ hden]
        calc (centroid_sums p (q :: rest)).1 ≤ 100 * (centroid_sums p (q :: rest)).2 :=
              hs.2.2
          _ ≤ 100 * max (centroid_sums p (q :: rest)).2 machine_eps := by
              nlinarith [le_max_left (centroid_sums p (q :: rest)).2 machine_eps]

theorem centroid_bounds (xs ys : List ℚ)
    (hch : List.Chain' (· ≤ ·) xs) (hx : ∀ x ∈ xs, 0 ≤ x ∧ x ≤ 100)
    (hy : ∀ y ∈ ys, 0 ≤ y) : 0 ≤ centroid xs ys ∧ centroid xs ys ≤ 100 := by
  rw [centroid]
  refine centroidPts_bounds (xs.zip ys) (chain'_fst_zip xs ys hch) ?_
  rintro ⟨a, b⟩ hab
  exact ⟨hx a (List.of_mem_zip hab).1, hy b (List.of_mem_zip hab).2⟩

theorem zipWith_max_nonneg :
    ∀ (l l' : List ℚ), (∀ a ∈ l, 0 ≤ a) → ∀ y ∈ List.zipWith max l l', 0 ≤ y
  | [], _, _, _, hy => by cases hy
  | _ :: _, [], _, _, hy => by cases hy
  | a :: l, b :: l', h, y, hy => by
      rcases List.mem_cons.mp hy with rfl | hy'
      · exact le_trans (h a (by simp)) (le_max_left a b)
      · exact zipWith_max_nonneg l l' (fun z hz => h z (List.mem_cons_of_mem _ hz)) y hy'

theorem clip_step_nonneg (agg : List ℚ) (tm : String × ℚ)
    (h : ∀ a ∈ agg, 0 ≤ a) : ∀ y ∈ clip_step agg tm, 0 ≤ y := by
  rw [clip_step]
  split_ifs
  · cases hmf : get_membership_function "livability" tm.1 with
    | none => exact h
    | some mf => exact zipWith_max_nonneg agg _ h
  · exact h

theorem foldl_clip_nonneg :
    ∀ (tms : List (String × ℚ)) (agg : List ℚ), (∀ a ∈ agg, 0 ≤ a) →
      ∀ y ∈ tms.foldl clip_step agg, 0 ≤ y
  | [], _, h, y, hy => h y hy
  | tm :: tms, agg, h, y, hy =>
      foldl_clip_nonneg tms _ (clip_step_nonneg agg tm h) y
        (by rwa [List.foldl_cons] at hy)

theorem clip_and_aggregate_nonneg (om : OutputAgg) :
    ∀ y ∈ clip_and_aggregate om, 0 ≤ y := by
  intro y hy
  rw [clip_and_aggregate] at hy
  refine foldl_clip_nonneg _ _ ?_ y hy
  intro a ha
  rcases List.mem_map.mp ha with ⟨_, _, rfl⟩
  exact le_refl 0

/-- C6: for every feature record, the score lies within the output
universe's bounds: 0 ≤ score ≤ 100, whether it comes from the centroid of
the clipped-and-maxed output envelope over the 0–100 universe or from the
explicit 50.0 no-activation default. -/
theorem score_within_output_bounds (features : List (String × ℚ)) :
    0 ≤ (compute_single_dwelling features).fli_score ∧
      (compute_single_dwelling features).fli_score ≤ 100 := by
  show 0 ≤ defuzzify_centroid (eval_rules (fuzzify_features features)).output_aggregation ∧
    defuzzify_centroid (eval_rules (fuzzify_features features)).output_aggregation ≤ 100
  rw [defuzzify_centroid]
  split_ifs with hsum
  · have huniv : (get_universe "livability").getD [] = arangeList 0 1 101 := by
      with_unfolding_all decide
    rw [huniv]
    refine centroid_bounds _ _ ?_ ?_ (clip_and_aggregate_nonneg _)
    · exact (arangeList_chain 0 1 (by norm_num) 101).imp (fun a b => le_of_lt)
    · have : ∀ x ∈ arangeList 0 1 101, 0 ≤ x ∧ x ≤ 100 := by
        with_unfolding_all decide
      exact this
  · norm_num

end Livability
